import Mathlib

/-!
# Verification of the object-streaming composition framework

Shallow embedding of `src/lib/index.ts` (the push-based object-streaming
library): the fan-out dispatcher (`SourceStream`/`Stream.output`/`pipe`),
the batching node (`StreamBatcher`), the backpressure wrapper
(`SynchroniserStream`), and the pure combinators (`map`, `filter`,
`forEach`, `branch`, `split`, `merge`).

Mutable object state becomes explicit state passing: each method of a class
becomes a function from the receiver's state (plus arguments) to the new
state together with the observable effects the method performed (deliveries
to downstream recipients, emissions, calls into a wrapped stream).
Downstream recipients are identified by natural-number ids; a delivery is
the pair (recipient id, object delivered), and the list of deliveries
records them in the order the code performs the `input` calls.
-/

namespace ObjStreaming

/-! ## Fan-out dispatcher (`SourceStream` base class, src/lib/index.ts:120-133)

```ts
export abstract class SourceStream<O> implements IStreamOutput<O> {
  private outputStreams: IStreamInput<O>[] = [];

  protected output(obj: O): void {
    for (let outputStream of this.outputStreams) {
      outputStream.input(obj);
    }
  }

  public pipe<T extends IStreamInput<O>>(outputStream: T): T {
    this.outputStreams.push(outputStream);
    return outputStream;
  }
}
```

Recipients are opaque handles identified by ids; `output` delivers `obj` to
each registered recipient in list order. -/

/-- State of a `SourceStream`: the ordered list of downstream recipients
(`outputStreams`), each identified by an id. -/
structure SourceStream (α : Type) where
  outputStreams : List Nat := []
deriving Repr, DecidableEq

/-- `pipe(outputStream)`: push the recipient onto the end of
`outputStreams` and return the recipient itself. Result: new state paired
with the returned value. -/
def SourceStream.pipe (s : SourceStream α) (recipient : Nat) :
    SourceStream α × Nat :=
  ({ s with outputStreams := s.outputStreams ++ [recipient] }, recipient)

/-- `output(obj)`: the for-loop delivering `obj` to every registered
recipient, in list order. The result is the delivery trace. -/
def SourceStream.output (s : SourceStream α) (obj : α) : List (Nat × α) :=
  s.outputStreams.map fun r => (r, obj)

/-- `input(obj)` of the identity entry node (`PassthroughStream.input`
calls `this.output(obj)`). -/
def SourceStream.inputCall (s : SourceStream α) (obj : α) : List (Nat × α) :=
  s.output obj

/-- Feed a sequence of inputs into the entry node; concatenated delivery
trace. -/
def SourceStream.run (s : SourceStream α) (inputs : List α) : List (Nat × α) :=
  (inputs.map (s.inputCall)).flatten

/-- A list in which `a` occurs exactly once filters down to `[a]`. -/
theorem filter_eq_singleton_of_count_one {l : List Nat} {a : Nat}
    (h : l.count a = 1) : l.filter (fun r => decide (r = a)) = [a] := by
  induction l with
  | nil => simp at h
  | cons b l ih =>
    by_cases hb : b = a
    · subst hb
      rw [List.count_cons_self] at h
      have h0 : l.count b = 0 := by omega
      have hnot : b ∉ l := by
        intro hmem
        have := List.count_pos_iff.mpr hmem
        omega
      have hfil : l.filter (fun r => decide (r = b)) = [] := by
        apply List.filter_eq_nil_iff.mpr
        intro x hx
        simp only [decide_eq_true_eq]
        exact fun hxa => hnot (hxa ▸ hx)
      simp [List.filter_cons, hfil]
    · rw [List.count_cons_of_ne (by exact fun hc => hb hc.symm)] at h
      simp [List.filter_cons, hb, ih h]

/-- Restricting one emission's delivery trace to a recipient registered
exactly once yields exactly one delivery of the emitted object. -/
theorem output_filter_recipient (s : SourceStream α) (obj : α) (robs : Nat)
    (hro : s.outputStreams.count robs = 1) :
    (s.output obj).filter (fun d => decide (d.1 = robs)) = [(robs, obj)] := by
  rw [SourceStream.output, List.filter_map]
  have : (fun d => decide (d.1 = robs)) ∘ (fun r => (r, obj))
      = fun r => decide (r = robs) := rfl
  rw [this, filter_eq_singleton_of_count_one hro]
  rfl

/-- C2: `pipe(recipient)` appends `recipient` to the end of the downstream
list and returns it unchanged; one emission notifies recipients in
registration order and delivers the object exactly once to a recipient
registered exactly once; and over a whole input sequence, such a recipient
receives exactly the emitted objects in emission order. -/
theorem sourceStream_pipe_fanout_correct (s : SourceStream α)
    (recipient robs : Nat) (obj : α) (inputs : List α)
    (hro : s.outputStreams.count robs = 1) :
    ((s.pipe recipient).2 = recipient
      ∧ (s.pipe recipient).1.outputStreams = s.outputStreams ++ [recipient])
    ∧ (s.output obj).map Prod.fst = s.outputStreams
    ∧ (s.output obj).filter (fun d => decide (d.1 = robs)) = [(robs, obj)]
    ∧ ((s.run inputs).filter (fun d => decide (d.1 = robs))).map Prod.snd
        = inputs := by
  refine ⟨⟨rfl, rfl⟩, ?_, output_filter_recipient s obj robs hro, ?_⟩
  · rw [SourceStream.output, List.map_map]
    exact List.map_id _
  · induction inputs with
    | nil => simp [SourceStream.run]
    | cons x xs ih =>
      rw [SourceStream.run] at ih ⊢
      rw [List.map_cons, List.flatten_cons, List.filter_append,
        List.map_append, ih]
      rw [SourceStream.inputCall, output_filter_recipient s x robs hro]
      rfl

/-- Witness for `sourceStream_pipe_fanout_correct` at a concrete stream
with recipients `[3, 5]`, observing recipient 5. -/
theorem sourceStream_pipe_fanout_correct_witness :
    (({ outputStreams := [3, 5] } : SourceStream Nat).outputStreams.count 5 = 1)
    ∧ ((({ outputStreams := [3, 5] } : SourceStream Nat).run [10, 20]).filter
        (fun d => decide (d.1 = 5))).map Prod.snd = [10, 20] :=
  ⟨by decide,
    (sourceStream_pipe_fanout_correct ({ outputStreams := [3, 5] }) 7 5 0 [10, 20]
      (by decide)).2.2.2⟩

/-! ## Batching node (`StreamBatcher`, src/lib/index.ts:180-243)

```ts
export interface IBatchOptions {
  maxItems?: number;
  idleTimeout?: number;
  delayTimeout?: number;
}

export class StreamBatcher<T> extends Stream<T,T[]> {
  private options: IBatchOptions;
  private batch: T[] = [];
  private idleTimer: number | null = null;
  private delayTimer: number | null = null;

  constructor(options: IBatchOptions) { ... }
  input(obj: T) { ... }
  emitBatch() { ... }
}
```

Optional numeric options become `Option Nat` (`none` = `undefined`).
A timer handle is `Option Nat`: `some d` is an armed timer with absolute
fire deadline `d` (a `setTimeout(cb, dur)` issued at virtual time `now`
arms deadline `now + dur`); `none` is no armed timer (`null`).
Each operation returns the new state paired with the list of batch arrays
it emitted downstream (via `this.output`). -/

/-- `IBatchOptions`: the three optional configuration fields. -/
structure IBatchOptions where
  maxItems : Option Nat := none
  idleTimeout : Option Nat := none
  delayTimeout : Option Nat := none
deriving Repr, DecidableEq

/-- Mutable state of a `StreamBatcher`: its (shared, possibly mutated)
options object, buffered batch, and the two timer handles. -/
structure StreamBatcher (α : Type) where
  options : IBatchOptions
  batch : List α := []
  idleTimer : Option Nat := none
  delayTimer : Option Nat := none
deriving Repr, DecidableEq

/-- The `StreamBatcher` constructor. Throws when both `idleTimeout` and
`delayTimeout` are defined; when none of the three options is defined it
assigns `idleTimeout = 0` **on the caller's options object** (a reference
the batcher also holds), so the result carries both the caller's options
object as observable after construction and the new batcher state. -/
def StreamBatcher.mk' (α : Type) (options : IBatchOptions) :
    Except String (IBatchOptions × StreamBatcher α) :=
  if options.idleTimeout ≠ none ∧ options.delayTimeout ≠ none then
    .error "idleTimeout and delayTimeout are mutually exclusive options"
  else
    let options :=
      if options.maxItems = none ∧ options.idleTimeout = none
          ∧ options.delayTimeout = none then
        { options with idleTimeout := some 0 }
      else options
    .ok (options, { options := options })

/-- `batch<T>(options = {})`: the factory is a direct constructor call. -/
def batchFactory (α : Type) (options : IBatchOptions := {}) :
    Except String (IBatchOptions × StreamBatcher α) :=
  StreamBatcher.mk' α options

/-- `emitBatch()`: cancel any armed delay timer; if the buffer is empty do
nothing more; otherwise emit the buffer as one array and reset it. -/
def StreamBatcher.emitBatch (s : StreamBatcher α) :
    StreamBatcher α × List (List α) :=
  let s := { s with delayTimer := none }
  if s.batch.length = 0 then (s, [])
  else ({ s with batch := [] }, [s.batch])

/-- `input(obj)` at virtual time `now`: cancel an armed idle timer, push
`obj`, flush when the max-item count is reached, otherwise arm the idle
timer (always) or the delay timer (only when unarmed), per configuration. -/
def StreamBatcher.inputAt (s : StreamBatcher α) (now : Nat) (obj : α) :
    StreamBatcher α × List (List α) :=
  let s := { s with idleTimer := none }
  let s := { s with batch := s.batch ++ [obj] }
  if s.options.maxItems ≠ none ∧ s.batch.length ≥ s.options.maxItems.getD 0
  then s.emitBatch
  else
    match s.options.idleTimeout with
    | some d => ({ s with idleTimer := some (now + d) }, [])
    | none =>
      match s.options.delayTimeout with
      | some d =>
        if s.delayTimer = none then
          ({ s with delayTimer := some (now + d) }, [])
        else (s, [])
      | none => (s, [])

/-- The idle-timer callback: `this.idleTimer = null; this.emitBatch();`. -/
def StreamBatcher.fireIdle (s : StreamBatcher α) :
    StreamBatcher α × List (List α) :=
  StreamBatcher.emitBatch { s with idleTimer := none }

/-- The delay-timer callback: `this.delayTimer = null; this.emitBatch();`. -/
def StreamBatcher.fireDelay (s : StreamBatcher α) :
    StreamBatcher α × List (List α) :=
  StreamBatcher.emitBatch { s with delayTimer := none }

/-- Feed a synchronous burst of inputs (all within one tick, at one virtual
time, no timer able to fire in between), collecting all emissions. -/
def StreamBatcher.runInputs (s : StreamBatcher α) (now : Nat) :
    List α → StreamBatcher α × List (List α)
  | [] => (s, [])
  | x :: xs =>
    (((s.inputAt now x).1.runInputs now xs).1,
      (s.inputAt now x).2 ++ ((s.inputAt now x).1.runInputs now xs).2)

/-- The options object stored by every operation's result is the one the
state already held: nothing after construction writes to it. -/
theorem inputAt_options (s : StreamBatcher α) (now : Nat) (obj : α) :
    (s.inputAt now obj).1.options = s.options := by
  rw [StreamBatcher.inputAt]
  dsimp only
  split
  · rw [StreamBatcher.emitBatch]
    dsimp only
    split <;> rfl
  · split
    · rfl
    · split
      · split <;> rfl
      · rfl

/-- `emitBatch` leaves the options object untouched. -/
theorem emitBatch_options (s : StreamBatcher α) :
    s.emitBatch.1.options = s.options := by
  rw [StreamBatcher.emitBatch]
  dsimp only
  split <;> rfl

/-- C7: constructing a `StreamBatcher` with both `idleTimeout` and
`delayTimeout` defined throws the mutual-exclusion error and produces no
batcher; any other option combination is accepted and yields a batcher. -/
theorem streamBatcher_ctor_validation (α : Type) (opts : IBatchOptions) :
    (opts.idleTimeout ≠ none ∧ opts.delayTimeout ≠ none →
      StreamBatcher.mk' α opts
        = .error "idleTimeout and delayTimeout are mutually exclusive options")
    ∧ (¬(opts.idleTimeout ≠ none ∧ opts.delayTimeout ≠ none) →
      ∃ o b, StreamBatcher.mk' α opts = .ok (o, b)) := by
  constructor
  · intro h
    rw [StreamBatcher.mk', if_pos h]
  · intro h
    rw [StreamBatcher.mk', if_neg h]
    exact ⟨_, _, rfl⟩

/-- Witness for `streamBatcher_ctor_validation`: both timeouts set is
rejected; `maxItems` with `idleTimeout` is accepted. -/
theorem streamBatcher_ctor_validation_witness :
    (StreamBatcher.mk' Nat { idleTimeout := some 1, delayTimeout := some 2 }
      = .error "idleTimeout and delayTimeout are mutually exclusive options")
    ∧ ∃ o b, StreamBatcher.mk' Nat { maxItems := some 3, idleTimeout := some 1 }
        = .ok (o, b) :=
  ⟨(streamBatcher_ctor_validation Nat
      { idleTimeout := some 1, delayTimeout := some 2 }).1 (by simp),
    (streamBatcher_ctor_validation Nat
      { maxItems := some 3, idleTimeout := some 1 }).2 (by simp)⟩

/-- C10: when none of the three options is defined, construction assigns
`idleTimeout = 0` on the caller's options object (the same object the
batcher holds); in every other accepted case the options object comes back
unmodified; and no subsequent operation (`input`, `emitBatch`, a timer
callback) writes to any field of the options object. -/
theorem streamBatcher_options_mutation (α : Type) (opts : IBatchOptions)
    (s : StreamBatcher α) (now : Nat) (obj : α) :
    (opts.maxItems = none ∧ opts.idleTimeout = none ∧ opts.delayTimeout = none →
      StreamBatcher.mk' α opts
        = .ok ({ opts with idleTimeout := some 0 },
            { options := { opts with idleTimeout := some 0 } }))
    ∧ (¬(opts.maxItems = none ∧ opts.idleTimeout = none
          ∧ opts.delayTimeout = none) →
        ¬(opts.idleTimeout ≠ none ∧ opts.delayTimeout ≠ none) →
        StreamBatcher.mk' α opts = .ok (opts, { options := opts }))
    ∧ (s.inputAt now obj).1.options = s.options
    ∧ s.emitBatch.1.options = s.options
    ∧ s.fireIdle.1.options = s.options
    ∧ s.fireDelay.1.options = s.options := by
  refine ⟨?_, ?_, inputAt_options s now obj, emitBatch_options s, ?_, ?_⟩
  · intro h
    rw [StreamBatcher.mk', if_neg (by simp [h.2.1])]
    rw [if_pos h]
  · intro h hv
    rw [StreamBatcher.mk', if_neg hv, if_neg h]
  · exact emitBatch_options _
  · exact emitBatch_options _

/-- Witness for `streamBatcher_options_mutation`: a caller's empty options
object comes back with `idleTimeout = 0` written into it. -/
theorem streamBatcher_options_mutation_witness :
    StreamBatcher.mk' Nat {}
      = .ok ({ idleTimeout := some 0 },
          { options := { idleTimeout := some 0 } }) :=
  (streamBatcher_options_mutation Nat {} { options := {} } 0 0).1
    (by exact ⟨rfl, rfl, rfl⟩)

/-- An input that brings the buffer to or above the configured max flushes
synchronously: one emission of the whole buffer, buffer emptied, both
timers unarmed. -/
theorem inputAt_flush (s : StreamBatcher α) (now : Nat) (obj : α) (k : Nat)
    (hk : s.options.maxItems = some k) (hlen : s.batch.length + 1 ≥ k) :
    s.inputAt now obj
      = ({ s with batch := [], idleTimer := none, delayTimer := none },
          [s.batch ++ [obj]]) := by
  rw [StreamBatcher.inputAt]
  dsimp only
  rw [if_pos (by simp [hk]; omega)]
  rw [StreamBatcher.emitBatch]
  dsimp only
  rw [if_neg (by simp)]

/-- An input that does not reach the configured max (or has no max
configured) emits nothing, appends the object to the buffer, and keeps the
options object. -/
theorem inputAt_no_flush (s : StreamBatcher α) (now : Nat) (obj : α)
    (h : ¬(s.options.maxItems ≠ none
        ∧ s.batch.length + 1 ≥ s.options.maxItems.getD 0)) :
    (s.inputAt now obj).1.options = s.options
    ∧ (s.inputAt now obj).1.batch = s.batch ++ [obj]
    ∧ (s.inputAt now obj).2 = [] := by
  rw [StreamBatcher.inputAt]
  dsimp only
  rw [if_neg (by simpa using h)]
  split
  · exact ⟨rfl, rfl, rfl⟩
  · split
    · split
      · exact ⟨rfl, rfl, rfl⟩
      · exact ⟨rfl, rfl, rfl⟩
    · exact ⟨rfl, rfl, rfl⟩

/-- Feeding a burst that stays strictly below the max accumulates: no
emission, the buffer extends by the burst, the options object unchanged. -/
theorem runInputs_accumulate (k : Nat) (xs : List α) (s : StreamBatcher α)
    (now : Nat) (hk : s.options.maxItems = some k)
    (hlen : s.batch.length + xs.length < k) :
    (s.runInputs now xs).1.options = s.options
    ∧ (s.runInputs now xs).1.batch = s.batch ++ xs
    ∧ (s.runInputs now xs).2 = [] := by
  induction xs generalizing s with
  | nil => simp [StreamBatcher.runInputs]
  | cons x xs ih =>
    rw [StreamBatcher.runInputs]
    have hnf : ¬(s.options.maxItems ≠ none
        ∧ s.batch.length + 1 ≥ s.options.maxItems.getD 0) := by
      simp only [hk]
      simp only [List.length_cons] at hlen
      simp
      omega
    obtain ⟨ho, hb, he⟩ := inputAt_no_flush s now x hnf
    have hlen' : (s.inputAt now x).1.batch.length + xs.length < k := by
      rw [hb]
      simp only [List.length_append, List.length_cons] at hlen ⊢
      simp
      omega
    obtain ⟨ho', hb', he'⟩ := ih (s.inputAt now x).1 (ho ▸ hk) hlen'
    refine ⟨by simpa [ho] using ho', ?_, by simp [he, he']⟩
    rw [hb', hb]
    simp

/-- `runInputs` over an appended burst splits into sequential runs. -/
theorem runInputs_append (s : StreamBatcher α) (now : Nat) (xs ys : List α) :
    s.runInputs now (xs ++ ys)
      = (((s.runInputs now xs).1.runInputs now ys).1,
          (s.runInputs now xs).2 ++ ((s.runInputs now xs).1.runInputs now ys).2) := by
  induction xs generalizing s with
  | nil => simp [StreamBatcher.runInputs]
  | cons x xs ih =>
    rw [List.cons_append, StreamBatcher.runInputs, StreamBatcher.runInputs]
    rw [ih]
    simp [List.append_assoc]

/-- C3: an input call that brings the buffer length to at or above the
configured `maxItems` (a `≥` check, not equality) synchronously emits
exactly one flush of the buffered items in arrival order, cancels any
armed delay timer, arms no timer, and empties the buffer; and feeding `k`
items into a freshly-constructed batcher with `maxItems = k ≥ 1` yields
exactly one flush containing those `k` items. -/
theorem streamBatcher_maxItems_flush (s : StreamBatcher α) (now : Nat)
    (obj : α) (k : Nat) (opts : IBatchOptions) (items : List α)
    (hk : s.options.maxItems = some k) (hlen : s.batch.length + 1 ≥ k)
    (hok : opts.maxItems = some k) (hcnt : items.length = k) (hpos : 1 ≤ k) :
    (s.inputAt now obj
      = ({ s with batch := [], idleTimer := none, delayTimer := none },
          [s.batch ++ [obj]]))
    ∧ (({ options := opts } : StreamBatcher α).runInputs now items).2 = [items]
    ∧ (({ options := opts } : StreamBatcher α).runInputs now items).1.batch
        = [] := by
  refine ⟨inputAt_flush s now obj k hk hlen, ?_⟩
  obtain ⟨ys, z, hyz⟩ :
      ∃ ys z, items = ys ++ [z] := by
    rcases List.eq_nil_or_concat items with h | ⟨ys, z, h⟩
    · rw [h] at hcnt
      simp at hcnt
      omega
    · exact ⟨ys, z, by simpa using h⟩
  subst hyz
  have hylen : ys.length + 1 = k := by simpa using hcnt
  have hacc := runInputs_accumulate k ys ({ options := opts } : StreamBatcher α)
    now hok (by simp; omega)
  obtain ⟨ho, hb, he⟩ := hacc
  rw [runInputs_append]
  set s1 := (StreamBatcher.runInputs { options := opts } now ys).1 with hs1
  have hfl := inputAt_flush s1 now z k (by rw [ho]; exact hok)
    (by rw [hb]; simp; omega)
  rw [StreamBatcher.runInputs, StreamBatcher.runInputs]
  rw [hfl]
  constructor
  · rw [he, hb]
    simp [StreamBatcher.runInputs]
  · simp [StreamBatcher.runInputs]

/-- Witness for `streamBatcher_maxItems_flush`: `maxItems = 2`, feeding
`[10, 20]` yields the single flush `[[10, 20]]`. -/
theorem streamBatcher_maxItems_flush_witness :
    ((({ options := { maxItems := some 2 } } : StreamBatcher Nat).runInputs
        0 [10, 20]).2 = [[10, 20]])
    ∧ (({ options := { maxItems := some 2 } } : StreamBatcher Nat).runInputs
        0 [10, 20]).1.batch = [] :=
  (streamBatcher_maxItems_flush
    ({ options := { maxItems := some 2 }, batch := [10] } : StreamBatcher Nat)
    0 20 2 { maxItems := some 2 } [10, 20]
    rfl (by decide) rfl rfl (by decide)).2

/-- C5 (amended): the previously-armed idle deadline never survives an
input call (cancelled at the start of the transition, whatever the
configuration); a fresh idle timer is armed by that input exactly when
`idleTimeout` is configured and the input does not trigger a max-items
flush. The result is independent of `s.idleTimer`. -/
theorem streamBatcher_idle_cancel (s : StreamBatcher α) (now : Nat) (obj : α) :
    (s.inputAt now obj).1.idleTimer
      = if s.options.maxItems ≠ none
            ∧ s.batch.length + 1 ≥ s.options.maxItems.getD 0 then none
        else s.options.idleTimeout.map (fun d => now + d) := by
  rw [StreamBatcher.inputAt]
  dsimp only
  split
  · rename_i h
    rw [if_pos (by simpa using h)]
    rw [StreamBatcher.emitBatch]
    dsimp only
    split <;> rfl
  · rename_i h
    rw [if_neg (by simpa using h)]
    rcases hit : s.options.idleTimeout with _ | d
    · dsimp only
      rcases s.options.delayTimeout with _ | d'
      · rfl
      · dsimp only
        split <;> rfl
    · rfl

/-- Counterexample to C5 as stated: with the delay policy configured
(`delayTimeout = 1`, nothing else), an input call leaves no armed idle
timer — the idle timer is *not* rescheduled on every input regardless of
policy. -/
theorem streamBatcher_idle_not_rescheduled_cex :
    ((({ options := { delayTimeout := some 1 } } : StreamBatcher Nat).inputAt
        0 0).1.idleTimer = none)
    ∧ ¬((({ options := { delayTimeout := some 1 } } : StreamBatcher Nat).inputAt
        0 0).1.idleTimer ≠ none) := by
  constructor <;> simp [StreamBatcher.inputAt, StreamBatcher.emitBatch]

/-! ### Event-interleaving semantics for the batcher

External code may interleave input calls, the two timer callbacks, and
direct `emitBatch()` invocations in any order; `runBatchEvents` folds such
an event list over the state, concatenating all emissions. -/

/-- One externally-observable event hitting a `StreamBatcher`. -/
inductive BatchEvent (α : Type) where
  | inputEv (now : Nat) (obj : α)
  | idleFire
  | delayFire
  | flushEv
deriving Repr

/-- Dispatch one event to the corresponding method. -/
def StreamBatcher.stepEvent (s : StreamBatcher α) :
    BatchEvent α → StreamBatcher α × List (List α)
  | .inputEv now obj => s.inputAt now obj
  | .idleFire => s.fireIdle
  | .delayFire => s.fireDelay
  | .flushEv => s.emitBatch

/-- Fold a list of events over the state, collecting emissions. -/
def StreamBatcher.runBatchEvents (s : StreamBatcher α) :
    List (BatchEvent α) → StreamBatcher α × List (List α)
  | [] => (s, [])
  | e :: es =>
    (((s.stepEvent e).1.runBatchEvents es).1,
      (s.stepEvent e).2 ++ ((s.stepEvent e).1.runBatchEvents es).2)

/-- The objects fed by the input events of an event list, in order. -/
def BatchEvent.inputsOf : List (BatchEvent α) → List α
  | [] => []
  | .inputEv _ o :: es => o :: inputsOf es
  | .idleFire :: es => inputsOf es
  | .delayFire :: es => inputsOf es
  | .flushEv :: es => inputsOf es

/-- Per-step conservation: the items a single event emits, followed by the
items left buffered, are exactly the items previously buffered plus the
items that event fed in, in order. -/
theorem stepEvent_conservation (s : StreamBatcher α) (e : BatchEvent α) :
    ((s.stepEvent e).2.flatten ++ (s.stepEvent e).1.batch
      = s.batch ++ BatchEvent.inputsOf [e]) := by
  have hemit : ∀ t : StreamBatcher α,
      t.emitBatch.2.flatten ++ t.emitBatch.1.batch = t.batch := by
    intro t
    rw [StreamBatcher.emitBatch]
    dsimp only
    split
    · rename_i h
      simp_all [List.length_eq_zero]
    · simp
  cases e with
  | inputEv now obj =>
    rw [StreamBatcher.stepEvent, StreamBatcher.inputAt]
    dsimp only
    split
    · rw [BatchEvent.inputsOf, BatchEvent.inputsOf]
      simpa using hemit _
    · rcases s.options.idleTimeout with _ | d
      · dsimp only
        rcases s.options.delayTimeout with _ | d'
        · simp [BatchEvent.inputsOf]
        · dsimp only
          split <;> simp [BatchEvent.inputsOf]
      · simp [BatchEvent.inputsOf]
  | idleFire =>
    rw [StreamBatcher.stepEvent, StreamBatcher.fireIdle]
    simpa [BatchEvent.inputsOf] using hemit _
  | delayFire =>
    rw [StreamBatcher.stepEvent, StreamBatcher.fireDelay]
    simpa [BatchEvent.inputsOf] using hemit _
  | flushEv =>
    rw [StreamBatcher.stepEvent]
    simpa [BatchEvent.inputsOf] using hemit _

/-- `inputsOf` distributes over appending event lists. -/
theorem inputsOf_append (es fs : List (BatchEvent α)) :
    BatchEvent.inputsOf (es ++ fs)
      = BatchEvent.inputsOf es ++ BatchEvent.inputsOf fs := by
  induction es with
  | nil => simp [BatchEvent.inputsOf]
  | cons e es ih =>
    cases e <;> simp [BatchEvent.inputsOf, ih]

/-- C6: a flush empties the buffer; a flush of an empty buffer emits
nothing (an empty array is never emitted) and only clears the delay
timer; and over any interleaving of inputs, timer firings, and external
flush calls, the concatenation of all flushed batches followed by the
final buffer equals the buffered-plus-fed items in order — so no item is
ever emitted twice. -/
theorem streamBatcher_flush_invariants (s : StreamBatcher α)
    (evs : List (BatchEvent α)) :
    (s.emitBatch
      = if s.batch.length = 0 then ({ s with delayTimer := none }, [])
        else ({ s with delayTimer := none, batch := [] }, [s.batch]))
    ∧ s.emitBatch.1.batch = []
    ∧ (s.emitBatch.2.all fun b => !b.isEmpty) = true
    ∧ (s.runBatchEvents evs).2.flatten ++ (s.runBatchEvents evs).1.batch
        = s.batch ++ BatchEvent.inputsOf evs := by
  refine ⟨?_, ?_, ?_, ?_⟩
  · rw [StreamBatcher.emitBatch]
  · rw [StreamBatcher.emitBatch]
    dsimp only
    split
    · rename_i h
      simpa [List.length_eq_zero] using h
    · rfl
  · rw [StreamBatcher.emitBatch]
    dsimp only
    split
    · rfl
    · rename_i h
      simp_all [List.isEmpty_iff, List.length_eq_zero]
  · induction evs generalizing s with
    | nil => simp [StreamBatcher.runBatchEvents, BatchEvent.inputsOf]
    | cons e es ih =>
      rw [StreamBatcher.runBatchEvents]
      dsimp only
      rw [show (e :: es) = [e] ++ es from rfl, inputsOf_append]
      rw [List.flatten_append, List.append_assoc, ih (s.stepEvent e).1]
      rw [← List.append_assoc, stepEvent_conservation s e, List.append_assoc]

/-! ### Timed semantics for the batcher

A `setTimeout` issued at virtual time `now` with duration `d` arms an
absolute deadline `now + d`; the event loop runs a due callback before any
code scheduled at a later time. `fireDue s t` fires the armed timers whose
deadline has passed by time `t` (a constructed batcher arms at most one of
the two timers, since the constructor rejects both timeout options being
set, so the order of the two branches is immaterial); emissions are tagged
with the virtual time at which they happen. `timedRun` processes a list of
timed inputs in order, firing due timers before each input, and finally
drains the remaining armed timers at their deadlines. -/

/-- Fire every armed timer whose deadline is at or before `t`, tagging
each emission with the deadline at which the callback ran. -/
def StreamBatcher.fireDue (s : StreamBatcher α) (t : Nat) :
    StreamBatcher α × List (Nat × List α) :=
  let p1 :=
    match s.delayTimer with
    | some dd =>
      if dd ≤ t then (s.fireDelay.1, s.fireDelay.2.map fun b => (dd, b))
      else (s, [])
    | none => (s, [])
  let p2 :=
    match p1.1.idleTimer with
    | some di =>
      if di ≤ t then (p1.1.fireIdle.1, p1.1.fireIdle.2.map fun b => (di, b))
      else (p1.1, [])
    | none => (p1.1, [])
  (p2.1, p1.2 ++ p2.2)

/-- Fire the remaining armed timers at their own deadlines (the end of a
run: no further input ever arrives, so every armed timer eventually
fires). -/
def StreamBatcher.drain (s : StreamBatcher α) :
    StreamBatcher α × List (Nat × List α) :=
  let p1 :=
    match s.delayTimer with
    | some dd => (s.fireDelay.1, s.fireDelay.2.map fun b => (dd, b))
    | none => (s, [])
  let p2 :=
    match p1.1.idleTimer with
    | some di => (p1.1.fireIdle.1, p1.1.fireIdle.2.map fun b => (di, b))
    | none => (p1.1, [])
  (p2.1, p1.2 ++ p2.2)

/-- Process timed inputs in order: before each input at time `t`, run the
timer callbacks that came due; afterwards drain the armed timers. -/
def StreamBatcher.timedRun (s : StreamBatcher α) :
    List (Nat × α) → StreamBatcher α × List (Nat × List α)
  | [] => s.drain
  | (t, x) :: rest =>
    ((((s.fireDue t).1.inputAt t x).1.timedRun rest).1,
      (s.fireDue t).2
        ++ ((s.fireDue t).1.inputAt t x).2.map (fun b => (t, b))
        ++ (((s.fireDue t).1.inputAt t x).1.timedRun rest).2)

/-- Under a delay-only configuration (`delayTimeout = dt`, no max, no idle
timeout), an input arms the delay deadline `now + dt` only when no delay
timer is armed and otherwise leaves the armed deadline untouched. -/
theorem inputAt_delayOnly (s : StreamBatcher α) (now : Nat) (obj : α)
    (dt : Nat)
    (hopts : s.options
      = { maxItems := none, idleTimeout := none, delayTimeout := some dt }) :
    s.inputAt now obj
      = ({ s with
            idleTimer := none,
            batch := s.batch ++ [obj],
            delayTimer := some (s.delayTimer.getD (now + dt)) }, []) := by
  rw [StreamBatcher.inputAt]
  dsimp only
  rw [if_neg (by simp [hopts])]
  rw [hopts]
  dsimp only
  rcases hd : s.delayTimer with _ | d
  · rw [if_pos (by simp [hd])]
    simp [hd]
  · rw [if_neg (by simp [hd])]
    simp [hd]

/-- Draining a delay-armed batcher with a nonempty buffer flushes it at
the armed deadline. -/
theorem timedRun_delayOnly (dt : Nat)
    (opts : IBatchOptions)
    (hopts : opts
      = { maxItems := none, idleTimeout := none, delayTimeout := some dt })
    (D : Nat) (b : List α) (hb : b ≠ []) (inputs : List (Nat × α))
    (hlt : ∀ p ∈ inputs, p.1 < D) :
    StreamBatcher.timedRun
        { options := opts, batch := b, idleTimer := none,
          delayTimer := some D } inputs
      = ({ options := opts, batch := [], idleTimer := none,
            delayTimer := none },
          [(D, b ++ inputs.map Prod.snd)]) := by
  induction inputs generalizing b with
  | nil =>
    rw [StreamBatcher.timedRun, StreamBatcher.drain]
    dsimp only
    rw [StreamBatcher.fireDelay, StreamBatcher.emitBatch]
    dsimp only
    rw [if_neg (by simpa [List.length_eq_zero] using hb)]
    simp
  | cons p rest ih =>
    obtain ⟨t, x⟩ := p
    rw [StreamBatcher.timedRun]
    have hndue : ¬(D ≤ t) := by
      have := hlt (t, x) (by simp)
      omega
    rw [StreamBatcher.fireDue]
    dsimp only
    rw [if_neg hndue]
    dsimp only
    rw [inputAt_delayOnly _ t x dt (by simpa using hopts)]
    dsimp only
    rw [show (Option.getD (some D) (t + dt)) = D from rfl]
    rw [ih (b ++ [x]) (by simp) (fun q hq => hlt q (by simp [hq]))]
    simp

/-- C4: with only `delayTimeout = dt` configured, an input arms the delay
deadline only when none is armed (later inputs never re-arm or extend it),
and a burst whose first item arrives at `t₀`, every later item arriving
before `t₀ + dt`, is flushed as exactly one batch of the whole burst at
time `t₀ + dt`. -/
theorem streamBatcher_delayTimeout (s : StreamBatcher α) (now t0 : Nat)
    (obj x0 : α) (dt : Nat) (opts : IBatchOptions)
    (hs : s.options
      = { maxItems := none, idleTimeout := none, delayTimeout := some dt })
    (hopts : opts
      = { maxItems := none, idleTimeout := none, delayTimeout := some dt })
    (rest : List (Nat × α)) (hlt : ∀ p ∈ rest, p.1 < t0 + dt) :
    ((s.inputAt now obj).1.delayTimer
        = some (s.delayTimer.getD (now + dt)))
    ∧ StreamBatcher.timedRun ({ options := opts } : StreamBatcher α)
        ((t0, x0) :: rest)
      = ({ options := opts, batch := [], idleTimer := none,
            delayTimer := none },
          [(t0 + dt, x0 :: rest.map Prod.snd)]) := by
  constructor
  · rw [inputAt_delayOnly s now obj dt hs]
  · rw [StreamBatcher.timedRun]
    rw [show StreamBatcher.fireDue ({ options := opts } : StreamBatcher α) t0
        = (({ options := opts } : StreamBatcher α), []) from rfl]
    dsimp only
    rw [inputAt_delayOnly _ t0 x0 dt (by simpa using hopts)]
    dsimp only
    rw [show (Option.getD (none : Option Nat) (t0 + dt)) = t0 + dt from rfl]
    simp only [List.nil_append]
    rw [timedRun_delayOnly dt opts hopts (t0 + dt) [x0] (by simp) rest hlt]
    simp

/-- Witness for `streamBatcher_delayTimeout`: `delayTimeout = 10`, burst
`(0, 1), (4, 2), (9, 3)` flushes once as `[1, 2, 3]` at time 10. -/
theorem streamBatcher_delayTimeout_witness :
    StreamBatcher.timedRun
        ({ options := { delayTimeout := some 10 } } : StreamBatcher Nat)
        [(0, 1), (4, 2), (9, 3)]
      = ({ options := { delayTimeout := some 10 }, batch := [],
            idleTimer := none, delayTimer := none },
          [(10, [1, 2, 3])]) :=
  (streamBatcher_delayTimeout
    ({ options := { delayTimeout := some 10 } } : StreamBatcher Nat)
    0 0 0 1 10 { delayTimeout := some 10 } rfl rfl
    [(4, 2), (9, 3)] (by decide)).2

/-! ## Backpressure wrapper (`SynchroniserStream`, src/lib/index.ts:246-282)

```ts
export class SynchroniserStream<I,O> extends Stream<I,O> {
  private strm: Stream<I,O>;
  private buffer: I[] = [];
  private pending: boolean = false;

  constructor(strm: Stream<I,O>) {
    super();
    this.strm = strm;
    this.strm.pipe(forEach((obj: O) => {
      this.output(obj);
      this.pending = false;
      this.next();
    }));
  }

  public input(obj: I) {
    this.buffer.push(obj);
    this.next();
  }

  next() {
    if (this.pending || this.buffer.length === 0) return;
    this.pending = true;
    let obj = <I>this.buffer.shift();
    this.strm.input(obj);
  }
}
```

The wrapped stream `strm` is external: the observable effects of a
`SynchroniserStream` method are the `strm.input` calls it makes (the
dispatch trace) and the objects it re-emits downstream. The events driving
the state machine are external `input` calls (`arrive`) and emissions of
`strm` (`strmEmit`, which run the piped `forEach` observer). A trace is
valid when `strm` emits only while an input to it is outstanding — the
documented caller contract that `strm`'s output always follows its
input. -/

/-- Mutable state of a `SynchroniserStream`: the FIFO queue of
not-yet-dispatched inputs and the in-flight flag. -/
structure SynchroniserStream (ι ω : Type) where
  buffer : List ι := []
  pending : Bool := false
deriving Repr, DecidableEq

/-- `next()`: if in flight or nothing queued, do nothing; otherwise set the
in-flight flag, shift the oldest queued item, and call `strm.input` with
it (the returned list is the dispatch this call performs). -/
def SynchroniserStream.next (s : SynchroniserStream ι ω) :
    SynchroniserStream ι ω × List ι :=
  match s.pending, s.buffer with
  | true, _ => (s, [])
  | false, [] => (s, [])
  | false, x :: rest => (⟨rest, true⟩, [x])

/-- `input(obj)`: push onto the queue, then attempt to advance. -/
def SynchroniserStream.inputCall (s : SynchroniserStream ι ω) (obj : ι) :
    SynchroniserStream ι ω × List ι :=
  SynchroniserStream.next { s with buffer := s.buffer ++ [obj] }

/-- The completion observer piped onto `strm`: when `strm` emits, re-emit
downstream (handled by the caller of this function), clear the in-flight
flag, and advance. -/
def SynchroniserStream.onStrmOutput (s : SynchroniserStream ι ω) :
    SynchroniserStream ι ω × List ι :=
  SynchroniserStream.next { s with pending := false }

/-- External event driving a `SynchroniserStream`. -/
inductive SyncEvent (ι ω : Type) where
  | arrive (obj : ι)
  | strmEmit (obj : ω)
deriving Repr

/-- Run an event trace: result state, trace of `strm.input` dispatches,
and trace of downstream re-emissions. -/
def SynchroniserStream.runSync (s : SynchroniserStream ι ω) :
    List (SyncEvent ι ω) → SynchroniserStream ι ω × List ι × List ω
  | [] => (s, [], [])
  | .arrive x :: es =>
    (((s.inputCall x).1.runSync es).1,
      (s.inputCall x).2 ++ ((s.inputCall x).1.runSync es).2.1,
      ((s.inputCall x).1.runSync es).2.2)
  | .strmEmit o :: es =>
    ((s.onStrmOutput.1.runSync es).1,
      s.onStrmOutput.2 ++ (s.onStrmOutput.1.runSync es).2.1,
      o :: (s.onStrmOutput.1.runSync es).2.2)

/-- The objects the external callers fed in, in arrival order. -/
def SyncEvent.arrivalsOf : List (SyncEvent ι ω) → List ι
  | [] => []
  | .arrive x :: es => x :: arrivalsOf es
  | .strmEmit _ :: es => arrivalsOf es

/-- The objects `strm` emitted, in order. -/
def SyncEvent.emitsOf : List (SyncEvent ι ω) → List ω
  | [] => []
  | .arrive _ :: es => emitsOf es
  | .strmEmit o :: es => o :: emitsOf es

/-- A trace is valid from `s` when `strm` emits only while an input is in
flight (its output always follows its input). -/
def SyncEvent.validFrom (s : SynchroniserStream ι ω) :
    List (SyncEvent ι ω) → Bool
  | [] => true
  | .arrive x :: es => validFrom (s.inputCall x).1 es
  | .strmEmit _ :: es => s.pending && validFrom s.onStrmOutput.1 es

/-- `next` moves the dispatched item (if any) off the front of the queue:
dispatch then remaining queue is the original queue. -/
theorem next_dispatch_buffer (t : SynchroniserStream ι ω) :
    t.next.2 ++ t.next.1.buffer = t.buffer := by
  rcases t with ⟨_ | ⟨x, rest⟩, _ | _⟩ <;> rfl

/-- `next` dispatches exactly when it raises the in-flight flag. -/
theorem next_dispatch_count (t : SynchroniserStream ι ω) :
    t.next.2.length + t.pending.toNat = t.next.1.pending.toNat := by
  rcases t with ⟨_ | ⟨x, rest⟩, _ | _⟩ <;> rfl

/-- FIFO invariant, unconditionally: the dispatched items followed by the
still-queued items are exactly the arrived items, in arrival order; and
the downstream re-emissions are exactly `strm`'s emissions, in order. -/
theorem runSync_fifo (s : SynchroniserStream ι ω)
    (evs : List (SyncEvent ι ω)) :
    (s.runSync evs).2.1 ++ (s.runSync evs).1.buffer
        = s.buffer ++ SyncEvent.arrivalsOf evs
    ∧ (s.runSync evs).2.2 = SyncEvent.emitsOf evs := by
  induction evs generalizing s with
  | nil => simp [SynchroniserStream.runSync, SyncEvent.arrivalsOf,
      SyncEvent.emitsOf]
  | cons e es ih =>
    cases e with
    | arrive x =>
      rw [SynchroniserStream.runSync, SyncEvent.arrivalsOf, SyncEvent.emitsOf]
      obtain ⟨ih1, ih2⟩ := ih (s.inputCall x).1
      refine ⟨?_, ih2⟩
      dsimp only
      rw [List.append_assoc, ih1]
      rw [← List.append_assoc]
      rw [show (s.inputCall x).2 ++ (s.inputCall x).1.buffer
          = s.buffer ++ [x] from next_dispatch_buffer _]
      simp
    | strmEmit o =>
      rw [SynchroniserStream.runSync, SyncEvent.arrivalsOf, SyncEvent.emitsOf]
      obtain ⟨ih1, ih2⟩ := ih s.onStrmOutput.1
      refine ⟨?_, by simpa using ih2⟩
      dsimp only
      rw [List.append_assoc, ih1]
      rw [← List.append_assoc]
      rw [show s.onStrmOutput.2 ++ s.onStrmOutput.1.buffer
          = s.buffer from next_dispatch_buffer _]

/-- Counting invariant on valid traces: the number of dispatches to `strm`
plus the initial in-flight flag equals the number of `strm` outputs plus
the final in-flight flag — at most one item is in flight at any instant. -/
theorem runSync_counts (s : SynchroniserStream ι ω)
    (evs : List (SyncEvent ι ω)) (hv : SyncEvent.validFrom s evs = true) :
    (s.runSync evs).2.1.length + s.pending.toNat
      = (SyncEvent.emitsOf evs).length + (s.runSync evs).1.pending.toNat := by
  induction evs generalizing s with
  | nil => simp [SynchroniserStream.runSync, SyncEvent.emitsOf]
  | cons e es ih =>
    cases e with
    | arrive x =>
      rw [SyncEvent.validFrom] at hv
      rw [SynchroniserStream.runSync, SyncEvent.emitsOf]
      dsimp only
      rw [List.length_append]
      have hstep : (s.inputCall x).2.length + s.pending.toNat
          = (s.inputCall x).1.pending.toNat :=
        next_dispatch_count ({ s with buffer := s.buffer ++ [x] })
      have := ih (s.inputCall x).1 hv
      omega
    | strmEmit o =>
      rw [SyncEvent.validFrom, Bool.and_eq_true] at hv
      rw [SynchroniserStream.runSync, SyncEvent.emitsOf]
      dsimp only
      rw [List.length_append]
      have hstep : s.onStrmOutput.2.length + s.pending.toNat
          = 1 + s.onStrmOutput.1.pending.toNat := by
        have h := next_dispatch_count
          ({ s with pending := false } : SynchroniserStream ι ω)
        dsimp only at h
        simp only [Bool.toNat_false, Nat.add_zero] at h
        rw [SynchroniserStream.onStrmOutput, hv.1]
        simp only [Bool.toNat_true]
        omega
      have := ih s.onStrmOutput.1 hv.2
      simp only [List.length_cons]
      omega

/-- Validity is closed under trace prefixes. -/
theorem validFrom_append (s : SynchroniserStream ι ω)
    (es1 es2 : List (SyncEvent ι ω))
    (hv : SyncEvent.validFrom s (es1 ++ es2) = true) :
    SyncEvent.validFrom s es1 = true := by
  induction es1 generalizing s with
  | nil => rfl
  | cons e es ih =>
    cases e with
    | arrive x =>
      rw [List.cons_append, SyncEvent.validFrom] at hv
      exact ih (s.inputCall x).1 hv
    | strmEmit o =>
      rw [List.cons_append, SyncEvent.validFrom, Bool.and_eq_true] at hv
      rw [SyncEvent.validFrom, Bool.and_eq_true]
      exact ⟨hv.1, ih s.onStrmOutput.1 hv.2⟩

/-- C1: over every valid event trace from a fresh `SynchroniserStream`
(valid: the wrapped `strm` emits only while an input to it is
outstanding): at every instant the number of inputs `strm` has received
exceeds the number of outputs it has produced exactly by the in-flight
flag — never two in flight, each dispatch only after the previous output
was observed; the dispatched items followed by the still-queued items are
exactly the arrived items in FIFO arrival order; and every output of
`strm` is re-emitted downstream, in order. -/
theorem synchroniserStream_backpressure (ι ω : Type)
    (evs es1 es2 : List (SyncEvent ι ω))
    (hv : SyncEvent.validFrom (⟨[], false⟩ : SynchroniserStream ι ω) evs = true)
    (hsplit : evs = es1 ++ es2) :
    ((SynchroniserStream.runSync ⟨[], false⟩ es1).2.1.length
        = (SyncEvent.emitsOf es1).length
          + (SynchroniserStream.runSync (⟨[], false⟩ :
              SynchroniserStream ι ω) es1).1.pending.toNat
      ∧ (SynchroniserStream.runSync (⟨[], false⟩ :
            SynchroniserStream ι ω) es1).2.1.length
          ≤ (SyncEvent.emitsOf es1).length + 1)
    ∧ (SynchroniserStream.runSync (⟨[], false⟩ :
          SynchroniserStream ι ω) evs).2.1
        ++ (SynchroniserStream.runSync (⟨[], false⟩ :
          SynchroniserStream ι ω) evs).1.buffer
        = SyncEvent.arrivalsOf evs
    ∧ (SynchroniserStream.runSync (⟨[], false⟩ :
          SynchroniserStream ι ω) evs).2.2 = SyncEvent.emitsOf evs := by
  have hv1 : SyncEvent.validFrom (⟨[], false⟩ : SynchroniserStream ι ω) es1
      = true := validFrom_append _ es1 es2 (hsplit ▸ hv)
  have hc := runSync_counts (⟨[], false⟩ : SynchroniserStream ι ω) es1 hv1
  simp only [Bool.toNat_false, Nat.add_zero] at hc
  have hf := runSync_fifo (⟨[], false⟩ : SynchroniserStream ι ω) evs
  refine ⟨⟨hc, ?_⟩, by simpa using hf.1, hf.2⟩
  have : ((SynchroniserStream.runSync (⟨[], false⟩ :
      SynchroniserStream ι ω) es1).1.pending.toNat) ≤ 1 := Bool.toNat_le _
  omega

/-- Witness for `synchroniserStream_backpressure`: inputs `a, b` arrive
before any completion, then `strm` answers twice; `strm` sees `a`, then
`b` only after `a`'s output. -/
theorem synchroniserStream_backpressure_witness :
    (SyncEvent.validFrom (⟨[], false⟩ : SynchroniserStream Nat Nat)
        [SyncEvent.arrive 1, SyncEvent.arrive 2, SyncEvent.strmEmit 10,
          SyncEvent.strmEmit 20] = true)
    ∧ ((SynchroniserStream.runSync (⟨[], false⟩ : SynchroniserStream Nat Nat)
          [SyncEvent.arrive 1, SyncEvent.arrive 2]).2.1.length
        = (SyncEvent.emitsOf ([SyncEvent.arrive 1, SyncEvent.arrive 2] :
            List (SyncEvent Nat Nat))).length
          + (SynchroniserStream.runSync (⟨[], false⟩ :
              SynchroniserStream Nat Nat)
              [SyncEvent.arrive 1, SyncEvent.arrive 2]).1.pending.toNat
      ∧ (SynchroniserStream.runSync (⟨[], false⟩ : SynchroniserStream Nat Nat)
            [SyncEvent.arrive 1, SyncEvent.arrive 2]).2.1.length
          ≤ (SyncEvent.emitsOf ([SyncEvent.arrive 1, SyncEvent.arrive 2] :
              List (SyncEvent Nat Nat))).length + 1) :=
  ⟨by decide,
    (synchroniserStream_backpressure Nat Nat
      [SyncEvent.arrive 1, SyncEvent.arrive 2, SyncEvent.strmEmit 10,
        SyncEvent.strmEmit 20]
      [SyncEvent.arrive 1, SyncEvent.arrive 2]
      [SyncEvent.strmEmit 10, SyncEvent.strmEmit 20]
      (by decide) rfl).1⟩

/-! ## Synchronous exception propagation (C8)

`FunctionStream.input` (src/lib/index.ts:150-152) calls the wrapped
function directly, and `Stream.output`/`SourceStream.output`
(src/lib/index.ts:123-127) is a plain `for` loop over the recipients
calling each `input` — no `try`/`catch` anywhere. A throw inside a wrapped
function therefore unwinds the whole synchronous call stack: it aborts the
enclosing fan-out loop mid-iteration and surfaces at the external caller.

The embedding: a pipeline tree of nodes, each holding an id, a wrapped
function that either returns a value or throws (`Except Nat` with a
numeric exception payload), and downstream recipients. `XNode.run`
evaluates one `input` call in a state-plus-exception style: the first
component is the trace of `input` calls performed (these side effects
survive the throw — recipients already notified stay notified), the second
is the exception escaping to the caller, if any. -/

/-- A node: `input(obj)` records its own receipt `(id, obj)`, applies the
wrapped function, and on success fans the result out to `outs` in order. -/
inductive XNode (α : Type) where
  | node (id : Nat) (f : α → Except Nat α) (outs : List (XNode α))

mutual

/-- One `input` call on a node: the notifications performed and the
exception propagated to the caller, if any. -/
def XNode.run : XNode α → α → List (Nat × α) × Option Nat
  | .node id f outs, v =>
    match f v with
    | .error e => ([(id, v)], some e)
    | .ok w => ((id, v) :: (XNode.fanout outs w).1, (XNode.fanout outs w).2)

/-- The fan-out `for` loop: notify recipients left to right; a throw
aborts the loop, keeping the notifications already performed. -/
def XNode.fanout : List (XNode α) → α → List (Nat × α) × Option Nat
  | [], _ => ([], none)
  | n :: rest, v =>
    match (XNode.run n v).2 with
    | some e => ((XNode.run n v).1, some e)
    | none =>
      ((XNode.run n v).1 ++ (XNode.fanout rest v).1, (XNode.fanout rest v).2)

end

/-- C8: a wrapped function that throws surfaces the exception at the
caller of `input` (nothing is caught), and when a recipient's subtree
throws partway through a fan-out dispatch, the recipients before it keep
their notifications and the recipients after it are never notified: the
dispatch trace is exactly the successful prefix followed by the failing
recipient's partial trace. -/
theorem exception_propagation (id : Nat) (f : α → Except Nat α)
    (outs pre post : List (XNode α)) (n : XNode α) (v : α) (e : Nat)
    (hf : f v = .error e)
    (hpre : ∀ m ∈ pre, (XNode.run m v).2 = none)
    (hn : (XNode.run n v).2 = some e) :
    XNode.run (.node id f outs) v = ([(id, v)], some e)
    ∧ XNode.fanout (pre ++ n :: post) v
      = ((pre.map fun m => (XNode.run m v).1).flatten ++ (XNode.run n v).1,
          some e) := by
  constructor
  · rw [XNode.run, hf]
  · induction pre with
    | nil =>
      rw [List.nil_append, XNode.fanout, hn]
      simp
    | cons m pre ih =>
      have hm : (XNode.run m v).2 = none := hpre m (by simp)
      rw [List.cons_append, XNode.fanout, hm]
      rw [ih (fun m' hm' => hpre m' (by simp [hm']))]
      simp

/-- Witness for `exception_propagation`: recipient 1 succeeds, recipient 2
throws exception 7, recipient 3 is registered after it; the dispatch
notifies 1 and 2 only and the caller of the entry's `input` observes
exception 7. -/
theorem exception_propagation_witness :
    XNode.run (.node 0 (fun _ => .error 7)
        [.node 3 (fun v => .ok v) []] : XNode Nat) 5 = ([(0, 5)], some 7)
    ∧ XNode.fanout
        ([.node 1 (fun v => .ok v) []] ++ (.node 2 (fun _ => .error 7) []) ::
          [.node 3 (fun v => .ok v) []] : List (XNode Nat)) 5
      = (([(.node 1 (fun v => .ok v) [] : XNode Nat)].map
            fun m => (XNode.run m 5).1).flatten
          ++ (XNode.run (.node 2 (fun _ => .error 7) [] : XNode Nat) 5).1,
          some 7) := by
  have h := exception_propagation 0 (fun _ : Nat => Except.error 7)
    [.node 3 (fun v => .ok v) []]
    [.node 1 (fun v => .ok v) []]
    [.node 3 (fun v => .ok v) []]
    (.node 2 (fun _ => .error 7) []) 5 7 rfl
    (by
      intro m hm
      simp only [List.mem_singleton] at hm
      rw [hm, XNode.run]
      rfl)
    (by rw [XNode.run])
  exact ⟨h.1, h.2⟩

/-! ## The two reference implementations and their shared surface (C9)

`src/lib/index.ts` contains two implementations of the library, separated
in the file. Implementation 1 (lines 11-109): base class `Stream<I,O>`
holds the recipient list, `output` and `pipe`; `SourceStream<T> extends
Stream<T,T>` is the entry node, with `input(obj) { this.output(obj); }`;
`source()` returns `new SourceStream<T>()`. Implementation 2 (lines
110-421): output-only base `SourceStream<O>` holds the recipient list,
`output` and `pipe`; `Stream<I,O> extends SourceStream<O>` adds the
abstract `input`; `PassthroughStream<T> extends Stream<T,T>` is the entry
node, with `input(obj) { this.output(obj); }`; `source()` returns
`new PassthroughStream<T>()`. The combinators `map`, `filter`, `forEach`,
`branch`, `split` and `merge` appear in both with the same bodies.

A pipeline over the shared surface is a tree: every combinator node
carries its list of piped downstream recipients; `merge(...streams)` pipes
a fresh `source()` node onto each producer, so a merged pipeline is the
entry-node constructor appearing as a recipient of several producers
(these nodes are all stateless, so sharing is behaviourally the tree
unfolding). Terminal observers are `forEach` nodes with no recipients.
One interpreter per implementation gives the delivery trace — pairs of
(observer id, object) in the order the `forEach` callbacks run — of one
external `input` call on the pipeline's entry. -/

/-- A pipeline tree over the shared surface of the two implementations.
`entryP` is the node `source()` returns; `forEachP` carries the id under
which its observer callback records the objects it sees. -/
inductive PNode (α : Type) where
  | entryP (outs : List (PNode α))
  | mapP (f : α → α) (outs : List (PNode α))
  | filterP (p : α → Bool) (outs : List (PNode α))
  | forEachP (id : Nat) (outs : List (PNode α))
  | branchP (p : α → Bool) (alt : PNode α) (outs : List (PNode α))
  | splitP (alts : List (PNode α)) (outs : List (PNode α))

mutual

/-- Implementation 1 (`Stream` base, entry `SourceStream` with
`input(obj){this.output(obj)}`): the delivery trace of one `input` call. -/
def PNode.run1 : PNode α → α → List (Nat × α)
  | .entryP outs, v => PNode.fan1 outs v
  | .mapP f outs, v => PNode.fan1 outs (f v)
  | .filterP p outs, v => if p v then PNode.fan1 outs v else []
  | .forEachP id outs, v => (id, v) :: PNode.fan1 outs v
  | .branchP p alt outs, v =>
    if p v then PNode.run1 alt v else PNode.fan1 outs v
  | .splitP alts outs, v => PNode.fanAlts1 alts v ++ PNode.fan1 outs v

/-- Implementation 1's `output` loop over the piped recipients. -/
def PNode.fan1 : List (PNode α) → α → List (Nat × α)
  | [], _ => []
  | n :: rest, v => PNode.run1 n v ++ PNode.fan1 rest v

/-- Implementation 1's `split` loop over the argument streams. -/
def PNode.fanAlts1 : List (PNode α) → α → List (Nat × α)
  | [], _ => []
  | n :: rest, v => PNode.run1 n v ++ PNode.fanAlts1 rest v

end

mutual

/-- Implementation 2 (output-only `SourceStream` base, entry
`PassthroughStream` with `input(obj){this.output(obj)}`): the delivery
trace of one `input` call. -/
def PNode.run2 : PNode α → α → List (Nat × α)
  | .entryP outs, v => PNode.fan2 outs v
  | .mapP f outs, v => PNode.fan2 outs (f v)
  | .filterP p outs, v => if p v then PNode.fan2 outs v else []
  | .forEachP id outs, v => (id, v) :: PNode.fan2 outs v
  | .branchP p alt outs, v =>
    if p v then PNode.run2 alt v else PNode.fan2 outs v
  | .splitP alts outs, v => PNode.fanAlts2 alts v ++ PNode.fan2 outs v

/-- Implementation 2's `output` loop over the piped recipients. -/
def PNode.fan2 : List (PNode α) → α → List (Nat × α)
  | [], _ => []
  | n :: rest, v => PNode.run2 n v ++ PNode.fan2 rest v

/-- Implementation 2's `split` loop over the argument streams. -/
def PNode.fanAlts2 : List (PNode α) → α → List (Nat × α)
  | [], _ => []
  | n :: rest, v => PNode.run2 n v ++ PNode.fanAlts2 rest v

end

mutual

/-- The two interpreters agree on every pipeline node and input. -/
theorem run1_eq_run2 (n : PNode α) (v : α) :
    PNode.run1 n v = PNode.run2 n v := by
  cases n with
  | entryP outs =>
    rw [PNode.run1, PNode.run2, fan1_eq_fan2]
  | mapP f outs =>
    rw [PNode.run1, PNode.run2, fan1_eq_fan2]
  | filterP p outs =>
    rw [PNode.run1, PNode.run2, fan1_eq_fan2]
  | forEachP id outs =>
    rw [PNode.run1, PNode.run2, fan1_eq_fan2]
  | branchP p alt outs =>
    rw [PNode.run1, PNode.run2, run1_eq_run2 alt v, fan1_eq_fan2]
  | splitP alts outs =>
    rw [PNode.run1, PNode.run2, fanAlts1_eq_fanAlts2, fan1_eq_fan2]

/-- The two fan-out loops agree. -/
theorem fan1_eq_fan2 (l : List (PNode α)) (v : α) :
    PNode.fan1 l v = PNode.fan2 l v := by
  cases l with
  | nil => rfl
  | cons n rest =>
    rw [PNode.fan1, PNode.fan2, run1_eq_run2 n v, fan1_eq_fan2 rest v]

/-- The two `split` loops agree. -/
theorem fanAlts1_eq_fanAlts2 (l : List (PNode α)) (v : α) :
    PNode.fanAlts1 l v = PNode.fanAlts2 l v := by
  cases l with
  | nil => rfl
  | cons n rest =>
    rw [PNode.fanAlts1, PNode.fanAlts2, run1_eq_run2 n v,
      fanAlts1_eq_fanAlts2 rest v]

end

/-- C9: the two implementations are behaviourally equivalent on their
shared surface — for every pipeline built from `source`, `map`, `filter`,
`forEach`, `branch`, `split` and `merge`, and every sequence of
synchronous inputs fed to its entry node, both implementations deliver the
same objects to the same observers in the same order. -/
theorem implementations_equivalent (n : PNode α) (inputs : List α) :
    (inputs.map (PNode.run1 n)).flatten = (inputs.map (PNode.run2 n)).flatten := by
  induction inputs with
  | nil => rfl
  | cons x xs ih =>
    rw [List.map_cons, List.map_cons, List.flatten_cons, List.flatten_cons]
    rw [run1_eq_run2 n x, ih]

end ObjStreaming
